import Mathlib

/-!
Shallow embedding of `src/lib/huffman.ts` (class `HuffmanCompressor`) and
verification of its specification.

Modelling conventions:
* a JS string of text is a `List Char` (the source iterates texts with
  `for (const char of text)`, i.e. character by character);
* a bitstring (a JS string over '0'/'1') is a `List Bool` with `false` = '0'
  and `true` = '1';
* a `HuffmanNode | null` value is an `HNode`, with the dedicated constructor
  `HNode.null` standing for JS `null`;
* a JS `Map` is an association list in insertion order: `Map.get` is `mapGet`,
  `Map.set` is `mapSet` (updating in place, appending fresh keys at the end),
  exactly as ECMAScript specifies;
* JS numbers holding character counts and bit counts are `Nat`; the one
  fractional number (`compressionRatio`) is a `Rat`;
* the byte-oriented transport layer (`btoa`/`atob`) is an injective encoding
  of byte sequences into strings; since it is inverted exactly where it is
  applied, a base64 string is modelled by the byte sequence (`List Nat`) it
  encodes, and the outer `btoa(JSON.stringify(...))` / `JSON.parse(atob(...))`
  pair is modelled by the `EncodedPayload` type below;
* a thrown JS `Error` is `Except.error` carrying the error message.
-/

deriving instance DecidableEq for Except

namespace HuffmanSpec

/-- Model of class `HuffmanNode`: `char` (JS `string | null`), `frequency`,
`left` and `right`.  The constructor `HNode.null` models the JS value `null`,
so an `HNode` is what a JS variable of type `HuffmanNode | null` holds;
`HNode.mk c f HNode.null HNode.null` is `new HuffmanNode(c, f)`. -/
inductive HNode where
  | null : HNode
  | mk (char : Option Char) (frequency : Nat) (left : HNode) (right : HNode) : HNode
deriving DecidableEq

/-- The `frequency` field of a node (only read on non-null nodes). -/
def HNode.frequency : HNode → Nat
  | .null => 0
  | .mk _ f _ _ => f

/-- Model of the plain-object form produced by `serializeTree`: the same
recursive `{char, frequency, left, right}` shape, with `null` for absent
subtrees. -/
inductive SerTree where
  | null : SerTree
  | mk (char : Option Char) (frequency : Nat) (left : SerTree) (right : SerTree) : SerTree
deriving DecidableEq

/-- `Map.get k` on an insertion-ordered map (association list). -/
def mapGet {β : Type} (k : Char) : List (Char × β) → Option β
  | [] => none
  | (k', v) :: rest => if k = k' then some v else mapGet k rest

/-- `Map.set k v` on an insertion-ordered map: an existing key keeps its
position and gets the new value, a fresh key is appended at the end. -/
def mapSet {β : Type} (k : Char) (v : β) : List (Char × β) → List (Char × β)
  | [] => [(k, v)]
  | (k', v') :: rest =>
      if k' = k then (k, v) :: rest else (k', v') :: mapSet k v rest

/-- One iteration of the frequency loop in `compress`:
`frequencies.set(char, (frequencies.get(char) || 0) + 1)`. -/
def freqStep (freqs : List (Char × Nat)) (ch : Char) : List (Char × Nat) :=
  mapSet ch ((mapGet ch freqs).getD 0 + 1) freqs

/-- The frequency table built by the loop
`for (const char of text) frequencies.set(char, (frequencies.get(char) || 0) + 1)`. -/
def countFreq (text : List Char) : List (Char × Nat) :=
  text.foldl freqStep []

/-- Stable insertion of a node into a frequency-sorted list (helper of the
stable sort below): the node goes after every strictly smaller element and
before equal ones that were already there later... it is placed before the
first element that is not strictly smaller. -/
def insertNode (x : HNode) : List HNode → List HNode
  | [] => [x]
  | y :: ys =>
      if y.frequency < x.frequency then y :: insertNode x ys else x :: y :: ys

/-- Model of `heap.sort((a, b) => a.frequency - b.frequency)`.  ECMAScript
`Array.prototype.sort` is stable, and a stable ascending sort by frequency is
unique, so it is modelled by stable insertion sort. -/
def sortNodes : List HNode → List HNode
  | [] => []
  | x :: xs => insertNode x (sortNodes xs)

/-- The re-insertion scan in `buildHuffmanTree`: walk the heap and splice the
merged node in before the first element with `merged.frequency <= heap[i].frequency`;
if no such element exists, push it at the end. -/
def insertMerged (m : HNode) : List HNode → List HNode
  | [] => [m]
  | x :: xs =>
      if m.frequency ≤ x.frequency then m :: x :: xs else x :: insertMerged m xs

/-- The `while (heap.length > 1)` loop of `buildHuffmanTree`, with an explicit
iteration bound.  Each iteration shortens the heap by one, so running it
`heap.length` times is the same as running it to completion; the bound only
makes the recursion structural (hence kernel-reducible). -/
def buildLoopGo : Nat → List HNode → List HNode
  | 0, heap => heap
  | fuel + 1, heap =>
      match heap with
      | left :: right :: rest =>
          buildLoopGo fuel
            (insertMerged
              (HNode.mk none (left.frequency + right.frequency) left right) rest)
      | _ => heap

/-- The merge loop of `buildHuffmanTree` run to completion. -/
def buildLoop (heap : List HNode) : List HNode :=
  buildLoopGo heap.length heap

/-- Model of `HuffmanCompressor.buildHuffmanTree`: leaves in map insertion
order, sorted by frequency, then greedy pairwise merging; returns
`heap.length > 0 ? heap[0] : null`. -/
def buildHuffmanTree (frequencies : List (Char × Nat)) : HNode :=
  let heap := frequencies.map fun e => HNode.mk (some e.1) e.2 HNode.null HNode.null
  let sorted := sortNodes heap
  match buildLoop sorted with
  | [] => HNode.null
  | t :: _ => t

/-- Model of the inner closure `traverse(node, code)` of `generateCodes`:
a node with a non-null `char` stores its accumulated code; an internal node
recurses left with `code + "0"` then right with `code + "1"`.  The source
guards each recursive call with a non-null check; here a null child simply
contributes nothing (the `.null` equation). -/
def traverse : HNode → List Bool → List (Char × List Bool) → List (Char × List Bool)
  | .null, _, codes => codes
  | .mk (some c) _ _ _, code, codes => mapSet c code codes
  | .mk none _ l r, code, codes =>
      traverse r (code ++ [true]) (traverse l (code ++ [false]) codes)

/-- Model of `HuffmanCompressor.generateCodes`: empty map for a null root, the
one-bit code "0" for a single-leaf root, otherwise a depth-first traversal. -/
def generateCodes (root : HNode) : List (Char × List Bool) :=
  match root with
  | .null => []
  | .mk (some c) _ .null .null => [(c, [false])]
  | _ => traverse root [] []

/-- Model of `HuffmanCompressor.serializeTree`. -/
def serializeTree : HNode → SerTree
  | .null => .null
  | .mk c f l r => .mk c f (serializeTree l) (serializeTree r)

/-- Model of `HuffmanCompressor.deserializeTree`. -/
def deserializeTree : SerTree → HNode
  | .null => .null
  | .mk c f l r => .mk c f (deserializeTree l) (deserializeTree r)

/-- `Number.parseInt(byte, 2)`: a chunk of bits, most significant first, read
as a number. -/
def byteVal (bits : List Bool) : Nat :=
  bits.foldl (fun acc b => 2 * acc + b.toNat) 0

/-- The chunking loop of `bitsToBase64`: `paddedBits.substr(i, 8)` for
`i = 0, 8, 16, ...`, each chunk parsed as a byte. -/
def chunkBytes : List Bool → List Nat
  | [] => []
  | b0 :: b1 :: b2 :: b3 :: b4 :: b5 :: b6 :: b7 :: rest =>
      byteVal [b0, b1, b2, b3, b4, b5, b6, b7] :: chunkBytes rest
  | l => [byteVal l]

/-- Model of `HuffmanCompressor.bitsToBase64`: right-pad with '0' to a
multiple of 8, chunk into bytes.  The final `btoa` is an injective encoding
of the byte string and is modelled away (see the header), so the result is
the byte sequence itself. -/
def bitsToBase64 (bits : List Bool) : List Nat :=
  let paddedBits := bits ++ List.replicate ((8 - bits.length % 8) % 8) false
  chunkBytes paddedBits

/-- `charCode.toString(2).padStart(8, "0")` for a byte: its 8 bits, most
significant first. -/
def byteToBits (n : Nat) : List Bool :=
  [decide (n / 128 % 2 = 1), decide (n / 64 % 2 = 1), decide (n / 32 % 2 = 1),
   decide (n / 16 % 2 = 1), decide (n / 8 % 2 = 1), decide (n / 4 % 2 = 1),
   decide (n / 2 % 2 = 1), decide (n % 2 = 1)]

/-- Model of `HuffmanCompressor.base64ToBits`: decode every byte to 8 bits
(`atob` modelled away, as in `bitsToBase64`), then
`bits.substring(0, originalLength)`. -/
def base64ToBits (base64 : List Nat) (originalLength : Nat) : List Bool :=
  ((base64.map byteToBits).flatten).take originalLength

/-- The encoding loop of `compress`:
`for (const char of text) compressedBits += codes.get(char) || ""`. -/
def encodeText (text : List Char) (codes : List (Char × List Bool)) : List Bool :=
  text.foldl (fun bits ch => bits ++ (mapGet ch codes).getD []) []

/-- The inner metadata object (`result`) that `compress` JSON-serializes into
the opaque payload string. -/
structure Bundle where
  compressed : List Nat
  tree : SerTree
  originalSize : Nat
  compressedSize : Nat
  compressionRatio : Rat
  bitsLength : Nat
deriving DecidableEq

/-- The opaque payload string `btoa(JSON.stringify(result))`.  Both transforms
are injective, so a payload string either is the encoding of exactly one
bundle (`wellFormed`) or fails `JSON.parse(atob(...))` (`malformed`). -/
inductive EncodedPayload where
  | wellFormed (data : Bundle) : EncodedPayload
  | malformed : EncodedPayload
deriving DecidableEq

/-- `JSON.parse(atob(compressedData))`: recovers the bundle or throws. -/
def parsePayload : EncodedPayload → Except String Bundle
  | .wellFormed data => .ok data
  | .malformed => .error "SyntaxError: unexpected token"

/-- The record returned by `compress`. -/
structure CompressResult where
  compressed : EncodedPayload
  tree : SerTree
  originalSize : Nat
  compressedSize : Nat
  compressionRatio : Rat
deriving DecidableEq

/-- Model of `HuffmanCompressor.compress`. -/
def compress (text : List Char) : Except String CompressResult :=
  if text = [] then
    Except.error "Texto vazio não pode ser comprimido"
  else
    let frequencies := countFreq text
    match buildHuffmanTree frequencies with
    | HNode.null => Except.error "Erro ao construir a árvore de Huffman"
    | root =>
        let codes := generateCodes root
        let compressedBits := encodeText text codes
        let originalSize := text.length * 8
        let compressedSize := compressedBits.length
        let compressionRatio : Rat :=
          ((originalSize : Rat) - (compressedSize : Rat)) / (originalSize : Rat) * 100
        let compressedBase64 := bitsToBase64 compressedBits
        let serializedTree := serializeTree root
        Except.ok
          { compressed := EncodedPayload.wellFormed
              { compressed := compressedBase64
                tree := serializedTree
                originalSize := originalSize
                compressedSize := compressedSize
                compressionRatio := compressionRatio
                bitsLength := compressedBits.length }
            tree := serializedTree
            originalSize := originalSize
            compressedSize := compressedSize
            compressionRatio := compressionRatio }

/-- The decode loop of `decompress`: one step per bit, '0' to the left child
and '1' to the right, emitting a character and restarting from the root
whenever the reached node has a non-null `char`.  Stepping into a JS `null`
(`currentNode.left!` when `left` is null) makes the subsequent `.char` access
throw a `TypeError`; that is the `none` result. -/
def decodeWalk (root : HNode) : HNode → List Bool → Option (List Char)
  | _, [] => some []
  | HNode.null, _ :: _ => none
  | HNode.mk _ _ l r, b :: bs =>
      match (match b with | false => l | true => r) with
      | HNode.null => none
      | HNode.mk (some c) _ _ _ => (decodeWalk root root bs).map fun s => c :: s
      | HNode.mk none f2 l2 r2 => decodeWalk root (HNode.mk none f2 l2 r2) bs

/-- The body of the `try` block of `decompress`, with each failure carrying
the message of the JS exception it models. -/
def decompressBody (compressedData : EncodedPayload) (tree : SerTree) :
    Except String (List Char) := do
  let data ← parsePayload compressedData
  match deserializeTree tree with
  | HNode.null => Except.error "Árvore de Huffman inválida"
  | HNode.mk rc rf rl rr =>
      let bits := base64ToBits data.compressed data.bitsLength
      match rc, rl, rr with
      | some c, HNode.null, HNode.null =>
          Except.ok (List.replicate bits.length c)
      | _, _, _ =>
          match decodeWalk (HNode.mk rc rf rl rr) (HNode.mk rc rf rl rr) bits with
          | some result => Except.ok result
          | none => Except.error "TypeError: null has no properties"

/-- Model of `HuffmanCompressor.decompress`: the whole body runs inside
`try { ... } catch { throw new Error("Erro na descompressão: ...") }`, so
every failure — including the internal "Árvore de Huffman inválida" throw —
surfaces as the single generic error. -/
def decompress (compressedData : EncodedPayload) (tree : SerTree) :
    Except String (List Char) :=
  (decompressBody compressedData tree).mapError
    fun _ => "Erro na descompressão: dados corrompidos ou inválidos"

/-! ## Association-list map lemmas -/

theorem mapGet_mapSet_self {β : Type} (k : Char) (v : β) (m : List (Char × β)) :
    mapGet k (mapSet k v m) = some v := by
  induction m with
  | nil => simp [mapGet, mapSet]
  | cons e rest ih =>
      obtain ⟨k', v'⟩ := e
      by_cases h : k' = k
      · simp [mapGet, mapSet, h]
      · simp only [mapSet, if_neg h]
        rw [mapGet, if_neg (fun hk => h hk.symm), ih]

theorem mapSet_fresh {β : Type} (k : Char) (v : β) (m : List (Char × β))
    (h : k ∉ m.map Prod.fst) : mapSet k v m = m ++ [(k, v)] := by
  induction m with
  | nil => rfl
  | cons e rest ih =>
      obtain ⟨k', v'⟩ := e
      simp only [List.map_cons, List.mem_cons] at h
      push_neg at h
      rw [mapSet, if_neg (fun he => h.1 he.symm), ih h.2, List.cons_append]

theorem mapGet_eq_some_mem {β : Type} {k : Char} {v : β} {m : List (Char × β)}
    (h : mapGet k m = some v) : (k, v) ∈ m := by
  induction m with
  | nil => simp [mapGet] at h
  | cons e rest ih =>
      obtain ⟨k', v'⟩ := e
      rw [mapGet] at h
      by_cases hk : k = k'
      · rw [if_pos hk] at h
        obtain rfl := Option.some.inj h
        simp [hk]
      · rw [if_neg hk] at h
        exact List.mem_cons_of_mem _ (ih h)

theorem mapGet_of_mem {β : Type} {k : Char} {v : β} {m : List (Char × β)}
    (hnd : (m.map Prod.fst).Nodup) (h : (k, v) ∈ m) : mapGet k m = some v := by
  induction m with
  | nil => simp at h
  | cons e rest ih =>
      obtain ⟨k', v'⟩ := e
      simp only [List.map_cons, List.nodup_cons] at hnd
      rcases List.mem_cons.mp h with he | hrest
      · obtain ⟨rfl, rfl⟩ := Prod.mk.injEq .. ▸ he
        simp [mapGet]
      · have hk : k ≠ k' := by
          rintro rfl
          exact hnd.1 (List.mem_map_of_mem Prod.fst hrest)
        rw [mapGet, if_neg hk]
        exact ih hnd.2 hrest

theorem mem_keys_mapGet {β : Type} {k : Char} {m : List (Char × β)}
    (h : k ∈ m.map Prod.fst) : ∃ v, mapGet k m = some v := by
  induction m with
  | nil => simp at h
  | cons e rest ih =>
      obtain ⟨k', v'⟩ := e
      by_cases hk : k = k'
      · exact ⟨v', by rw [mapGet, if_pos hk]⟩
      · simp only [List.map_cons, List.mem_cons] at h
        rcases h with h | h
        · exact absurd h hk
        · obtain ⟨v, hv⟩ := ih h
          exact ⟨v, by rw [mapGet, if_neg hk, hv]⟩

/-! ## Bit packer / unpacker (claim C4 infrastructure) -/

theorem byteToBits_byteVal8 (b0 b1 b2 b3 b4 b5 b6 b7 : Bool) :
    byteToBits (byteVal [b0, b1, b2, b3, b4, b5, b6, b7]) =
      [b0, b1, b2, b3, b4, b5, b6, b7] := by
  revert b0 b1 b2 b3 b4 b5 b6 b7
  decide

theorem chunkBytes_flatten : ∀ l : List Bool, l.length % 8 = 0 →
    ((chunkBytes l).map byteToBits).flatten = l
  | [], _ => rfl
  | b0 :: b1 :: b2 :: b3 :: b4 :: b5 :: b6 :: b7 :: rest, h => by
      have hr : rest.length % 8 = 0 := by
        simp only [List.length_cons] at h
        omega
      have ih := chunkBytes_flatten rest hr
      simp only [chunkBytes, List.map_cons, List.flatten_cons, ih,
        byteToBits_byteVal8, List.cons_append, List.nil_append]
  | [b0], h => by simp at h
  | [b0, b1], h => by simp at h
  | [b0, b1, b2], h => by simp at h
  | [b0, b1, b2, b3], h => by simp at h
  | [b0, b1, b2, b3, b4], h => by simp at h
  | [b0, b1, b2, b3, b4, b5], h => by simp at h
  | [b0, b1, b2, b3, b4, b5, b6], h => by simp at h

theorem bits_roundtrip (bits : List Bool) :
    base64ToBits (bitsToBase64 bits) bits.length = bits := by
  unfold base64ToBits bitsToBase64
  rw [chunkBytes_flatten]
  · rw [List.take_append_of_le_length (le_refl _), List.take_length]
  · simp only [List.length_append, List.length_replicate]
    omega

/-! ## Frequency table lemmas -/

theorem keys_mapSet {β : Type} (k : Char) (v : β) (m : List (Char × β)) :
    (mapSet k v m).map Prod.fst =
      if k ∈ m.map Prod.fst then m.map Prod.fst else m.map Prod.fst ++ [k] := by
  induction m with
  | nil => simp [mapSet]
  | cons e rest ih =>
      obtain ⟨k', v'⟩ := e
      by_cases h : k' = k
      · subst h
        simp [mapSet]
      · rw [mapSet, if_neg h]
        by_cases hm : k ∈ rest.map Prod.fst
        · simp only [List.map_cons, ih, if_pos hm]
          rw [if_pos (List.mem_cons_of_mem _ hm)]
        · simp only [List.map_cons, ih, if_neg hm]
          rw [if_neg, List.cons_append]
          simp only [List.mem_cons]
          push_neg
          exact ⟨fun he => h he.symm, hm⟩

theorem nodup_keys_mapSet {β : Type} (k : Char) (v : β) (m : List (Char × β))
    (hnd : (m.map Prod.fst).Nodup) : ((mapSet k v m).map Prod.fst).Nodup := by
  rw [keys_mapSet]
  by_cases h : k ∈ m.map Prod.fst
  · rwa [if_pos h]
  · rw [if_neg h]
    simp [List.nodup_append, hnd, h]

theorem foldl_freqStep_keys (text : List Char) :
    ∀ m : List (Char × Nat), (m.map Prod.fst).Nodup →
      ((text.foldl freqStep m).map Prod.fst).Nodup ∧
      ∀ c, c ∈ (text.foldl freqStep m).map Prod.fst ↔
        c ∈ m.map Prod.fst ∨ c ∈ text := by
  induction text with
  | nil => intro m h; simpa using h
  | cons ch tl ih =>
      intro m hnd
      have hstep : ((freqStep m ch).map Prod.fst).Nodup :=
        nodup_keys_mapSet _ _ _ hnd
      obtain ⟨h1, h2⟩ := ih (freqStep m ch) hstep
      constructor
      · rw [List.foldl_cons]
        exact h1
      · intro c
        have hkeys : c ∈ (freqStep m ch).map Prod.fst ↔
            c ∈ m.map Prod.fst ∨ c = ch := by
          unfold freqStep
          rw [keys_mapSet]
          by_cases hm : ch ∈ m.map Prod.fst
          · rw [if_pos hm]
            constructor
            · exact Or.inl
            · rintro (h | rfl)
              · exact h
              · exact hm
          · rw [if_neg hm]
            simp [List.mem_append]
        rw [List.foldl_cons, h2 c, hkeys]
        simp only [List.mem_cons, or_assoc]

theorem countFreq_keys_nodup (text : List Char) :
    ((countFreq text).map Prod.fst).Nodup :=
  (foldl_freqStep_keys text [] (by simp)).1

theorem countFreq_mem_keys (text : List Char) (c : Char) :
    c ∈ (countFreq text).map Prod.fst ↔ c ∈ text := by
  have := (foldl_freqStep_keys text [] (by simp)).2 c
  simpa [countFreq] using this

theorem countFreq_ne_nil {text : List Char} (h : text ≠ []) :
    countFreq text ≠ [] := by
  obtain ⟨c, tl, rfl⟩ := List.exists_cons_of_ne_nil h
  intro hc
  have := (countFreq_mem_keys (c :: tl) c).mpr (List.mem_cons_self c tl)
  rw [hc] at this
  simp at this

theorem sum_freqStep (f : Char → Nat) (ch : Char) :
    ∀ m : List (Char × Nat),
      ((freqStep m ch).map fun e => e.2 * f e.1).sum =
        ((m.map fun e => e.2 * f e.1)).sum + f ch := by
  intro m
  induction m with
  | nil => simp [freqStep, mapGet, mapSet]
  | cons e rest ih =>
      obtain ⟨k, v⟩ := e
      by_cases h : ch = k
      · subst h
        have hg : mapGet ch ((ch, v) :: rest) = some v := by
          rw [mapGet, if_pos rfl]
        have hs : freqStep ((ch, v) :: rest) ch = (ch, v + 1) :: rest := by
          unfold freqStep
          rw [hg, Option.getD_some, mapSet, if_pos rfl]
        rw [hs]
        simp only [List.map_cons, List.sum_cons]
        ring
      · have hstep : freqStep ((k, v) :: rest) ch = (k, v) :: freqStep rest ch := by
          unfold freqStep
          rw [mapGet, if_neg h, mapSet, if_neg (fun he => h he.symm)]
        rw [hstep]
        simp only [List.map_cons, List.sum_cons, ih]
        ring

theorem countFreq_sum (text : List Char) (f : Char → Nat) :
    ((countFreq text).map fun e => e.2 * f e.1).sum = (text.map f).sum := by
  suffices h : ∀ m : List (Char × Nat),
      ((text.foldl freqStep m).map fun e => e.2 * f e.1).sum =
        ((m.map fun e => e.2 * f e.1)).sum + (text.map f).sum by
    simpa [countFreq] using h []
  induction text with
  | nil => simp
  | cons ch tl ih =>
      intro m
      rw [List.foldl_cons, ih (freqStep m ch), sum_freqStep]
      simp only [List.map_cons, List.sum_cons]
      ring

theorem countFreq_replicate (c : Char) (n : Nat) (h : 1 ≤ n) :
    countFreq (List.replicate n c) = [(c, n)] := by
  have key : ∀ k m : Nat,
      (List.replicate k c).foldl freqStep [(c, m)] = [(c, m + k)] := by
    intro k
    induction k with
    | zero => simp
    | succ k ih =>
        intro m
        rw [List.replicate_succ, List.foldl_cons]
        have hstep : freqStep [(c, m)] c = [(c, m + 1)] := by
          simp [freqStep, mapGet, mapSet]
        rw [hstep, ih (m + 1)]
        have harith : m + 1 + k = m + (k + 1) := by omega
        rw [harith]
  obtain ⟨k, rfl⟩ : ∃ k, n = k + 1 := ⟨n - 1, by omega⟩
  rw [List.replicate_succ, countFreq, List.foldl_cons]
  have hstep : freqStep [] c = [(c, 1)] := by
    simp [freqStep, mapGet, mapSet]
  rw [hstep, key k 1]
  have harith : 1 + k = k + 1 := by omega
  rw [harith]

theorem text_single_char {text : List Char} {c : Char} {n : Nat}
    (h : countFreq text = [(c, n)]) : ∀ ch ∈ text, ch = c := by
  intro ch hch
  have := (countFreq_mem_keys text ch).mpr hch
  rw [h] at this
  simpa using this

/-! ## Tree builder invariants -/

/-- The characters at the code-bearing nodes of a tree, left to right: a node
with a non-null `char` carries exactly that character (its children, if any,
are ignored — mirroring `generateCodes`), an internal node contributes its
two subtrees. -/
def leafChars : HNode → List Char
  | .null => []
  | .mk (some c) _ _ _ => [c]
  | .mk none _ l r => leafChars l ++ leafChars r

/-- Well-formed Huffman nodes, exactly the shapes `buildHuffmanTree` creates:
a leaf `new HuffmanNode(char, freq)` with both children null, or a merged
internal node with `char === null` and two well-formed children. -/
inductive WF : HNode → Prop where
  | leaf (c : Char) (f : Nat) : WF (HNode.mk (some c) f HNode.null HNode.null)
  | node (f : Nat) {l r : HNode} : WF l → WF r → WF (HNode.mk none f l r)

theorem WF.ne_null {t : HNode} (h : WF t) : t ≠ HNode.null := by
  cases h <;> simp

theorem insertMerged_length (m : HNode) :
    ∀ l : List HNode, (insertMerged m l).length = l.length + 1
  | [] => rfl
  | x :: xs => by
      rw [insertMerged]
      split
      · simp
      · simp [insertMerged_length m xs]

theorem insertMerged_perm (m : HNode) :
    ∀ l : List HNode, List.Perm (insertMerged m l) (m :: l)
  | [] => List.Perm.refl _
  | x :: xs => by
      rw [insertMerged]
      split
      · exact List.Perm.refl _
      · exact ((insertMerged_perm m xs).cons x).trans (List.Perm.swap m x xs)

theorem insertNode_perm (x : HNode) :
    ∀ l : List HNode, List.Perm (insertNode x l) (x :: l)
  | [] => List.Perm.refl _
  | y :: ys => by
      rw [insertNode]
      split
      · exact ((insertNode_perm x ys).cons y).trans (List.Perm.swap x y ys)
      · exact List.Perm.refl _

theorem sortNodes_perm : ∀ l : List HNode, List.Perm (sortNodes l) l
  | [] => List.Perm.refl _
  | x :: xs => (insertNode_perm x (sortNodes xs)).trans ((sortNodes_perm xs).cons x)

theorem buildLoopGo_one (fuel : Nat) (t : HNode) : buildLoopGo fuel [t] = [t] := by
  cases fuel <;> rfl

theorem buildLoopGo_nonempty :
    ∀ (fuel : Nat) (heap : List HNode), heap ≠ [] → heap.length ≤ fuel + 1 →
      ∃ t, buildLoopGo fuel heap = [t] := by
  intro fuel
  induction fuel with
  | zero =>
      intro heap hne hlen
      match heap, hne with
      | [x], _ => exact ⟨x, rfl⟩
      | x :: y :: rest, _ =>
          exfalso
          simp only [List.length_cons] at hlen
          omega
  | succ fuel ih =>
      intro heap hne hlen
      match heap, hne with
      | [x], _ => exact ⟨x, rfl⟩
      | x :: y :: rest, _ =>
          simp only [buildLoopGo]
          apply ih
          · intro h0
            have := insertMerged_length
              (HNode.mk none (x.frequency + y.frequency) x y) rest
            rw [h0] at this
            simp at this
          · have := insertMerged_length
              (HNode.mk none (x.frequency + y.frequency) x y) rest
            simp only [List.length_cons] at hlen
            omega

theorem buildLoopGo_inv :
    ∀ (fuel : Nat) (heap : List HNode), (∀ t ∈ heap, WF t) →
      (∀ t ∈ buildLoopGo fuel heap, WF t) ∧
      List.Perm ((buildLoopGo fuel heap).flatMap leafChars) (heap.flatMap leafChars) := by
  intro fuel
  induction fuel with
  | zero => exact fun heap h => ⟨h, List.Perm.refl _⟩
  | succ fuel ih =>
      intro heap hwf
      match heap with
      | [] => exact ⟨hwf, List.Perm.refl _⟩
      | [x] => exact ⟨hwf, List.Perm.refl _⟩
      | x :: y :: rest =>
          have hx : WF x := hwf x (by simp)
          have hy : WF y := hwf y (by simp)
          have hm : WF (HNode.mk none (x.frequency + y.frequency) x y) :=
            WF.node _ hx hy
          have hins : ∀ t ∈ insertMerged
              (HNode.mk none (x.frequency + y.frequency) x y) rest, WF t := by
            intro t ht
            rcases List.mem_cons.mp ((insertMerged_perm _ rest).mem_iff.mp ht)
              with rfl | ht
            · exact hm
            · exact hwf t (by simp [ht])
          obtain ⟨h1, h2⟩ := ih
            (insertMerged (HNode.mk none (x.frequency + y.frequency) x y) rest) hins
          constructor
          · intro t ht
            simp only [buildLoopGo] at ht
            exact h1 t ht
          · simp only [buildLoopGo]
            refine h2.trans ?_
            refine ((insertMerged_perm _ rest).flatMap_right leafChars).trans ?_
            simp only [List.flatMap_cons, leafChars, List.append_assoc]
            exact List.Perm.refl _

theorem buildLoopGo_internal :
    ∀ (fuel : Nat) (heap : List HNode), heap.length ≤ fuel + 1 →
      2 ≤ heap.length →
      ∃ f l r, buildLoopGo fuel heap = [HNode.mk none f l r] := by
  intro fuel
  induction fuel with
  | zero =>
      intro heap hlen h2
      omega
  | succ fuel ih =>
      intro heap hlen h2
      match heap with
      | [] => simp at h2
      | [x] => simp at h2
      | x :: y :: rest =>
          simp only [buildLoopGo]
          match rest with
          | [] =>
              exact ⟨x.frequency + y.frequency, x, y, buildLoopGo_one _ _⟩
          | z :: rest' =>
              apply ih
              · rw [insertMerged_length]
                simp only [List.length_cons] at hlen ⊢
                omega
              · rw [insertMerged_length]
                simp only [List.length_cons]
                omega

theorem flatMap_leafChars_leaves (freqs : List (Char × Nat)) :
    (freqs.map fun e =>
        HNode.mk (some e.1) e.2 HNode.null HNode.null).flatMap leafChars
      = freqs.map Prod.fst := by
  induction freqs with
  | nil => rfl
  | cons e tl ih =>
      simp only [List.map_cons, List.flatMap_cons, ih, leafChars,
        List.singleton_append]

theorem buildHuffmanTree_eq (freqs : List (Char × Nat)) (hne : freqs ≠ []) :
    ∃ root, buildHuffmanTree freqs = root ∧ WF root ∧
      List.Perm (leafChars root) (freqs.map Prod.fst) := by
  have hheapne :
      (freqs.map fun e => HNode.mk (some e.1) e.2 HNode.null HNode.null) ≠ [] := by
    intro h0
    exact hne (List.map_eq_nil_iff.mp h0)
  set heap := freqs.map fun e => HNode.mk (some e.1) e.2 HNode.null HNode.null
    with hheap
  have hsortedne : sortNodes heap ≠ [] := by
    intro h0
    have hlen := (sortNodes_perm heap).length_eq
    rw [h0] at hlen
    exact hheapne (List.length_eq_zero.mp hlen.symm)
  obtain ⟨t, ht⟩ := buildLoopGo_nonempty (sortNodes heap).length (sortNodes heap)
    hsortedne (by omega)
  have hwfsorted : ∀ u ∈ sortNodes heap, WF u := by
    intro u hu
    have hu' : u ∈ heap := (sortNodes_perm heap).mem_iff.mp hu
    rw [hheap] at hu'
    obtain ⟨e, _, rfl⟩ := List.mem_map.mp hu'
    exact WF.leaf _ _
  obtain ⟨hwfall, hperm⟩ :=
    buildLoopGo_inv (sortNodes heap).length (sortNodes heap) hwfsorted
  refine ⟨t, ?_, ?_, ?_⟩
  · simp only [buildHuffmanTree, buildLoop, ← hheap, ht]
  · exact hwfall t (by rw [ht]; simp)
  · rw [ht] at hperm
    simp only [List.flatMap_cons, List.flatMap_nil, List.append_nil] at hperm
    refine hperm.trans ?_
    refine ((sortNodes_perm heap).flatMap_right leafChars).trans ?_
    rw [hheap, flatMap_leafChars_leaves]

theorem buildHuffmanTree_internal (freqs : List (Char × Nat))
    (h2 : 2 ≤ freqs.length) :
    ∃ f l r, buildHuffmanTree freqs = HNode.mk none f l r := by
  set heap := freqs.map fun e => HNode.mk (some e.1) e.2 HNode.null HNode.null
    with hheap
  have hlen : (sortNodes heap).length = freqs.length := by
    rw [(sortNodes_perm heap).length_eq, hheap, List.length_map]
  obtain ⟨f, l, r, hres⟩ := buildLoopGo_internal (sortNodes heap).length
    (sortNodes heap) (by omega) (by omega)
  exact ⟨f, l, r, by simp only [buildHuffmanTree, buildLoop, ← hheap, hres]⟩

theorem buildHuffmanTree_single (c : Char) (n : Nat) :
    buildHuffmanTree [(c, n)] = HNode.mk (some c) n HNode.null HNode.null := rfl

/-! ## Code table: paths, traverse characterization, prefix-freeness -/

/-- The root-to-leaf code paths of a tree: the pure value that the imperative
`traverse` accumulates ('0' = left = `false`, '1' = right = `true`). -/
def pathsList : HNode → List (Char × List Bool)
  | .null => []
  | .mk (some c) _ _ _ => [(c, [])]
  | .mk none _ l r =>
      (pathsList l).map (fun p => (p.1, false :: p.2)) ++
        (pathsList r).map (fun p => (p.1, true :: p.2))

theorem keys_pathsList : ∀ t : HNode, (pathsList t).map Prod.fst = leafChars t
  | .null => rfl
  | .mk (some c) f l r => rfl
  | .mk none f l r => by
      simp only [pathsList, leafChars, List.map_append, List.map_map]
      rw [show (Prod.fst ∘ fun p : Char × List Bool => (p.1, false :: p.2)) =
            Prod.fst from rfl,
          show (Prod.fst ∘ fun p : Char × List Bool => (p.1, true :: p.2)) =
            Prod.fst from rfl,
          keys_pathsList l, keys_pathsList r]

theorem map_code_shift (code : List Bool) (b : Bool)
    (l : List (Char × List Bool)) :
    (l.map fun p => (p.1, b :: p.2)).map (fun p => (p.1, code ++ p.2)) =
      l.map fun p => (p.1, (code ++ [b]) ++ p.2) := by
  rw [List.map_map]
  apply List.map_congr_left
  intro p _
  simp only [Function.comp_apply]
  rw [List.append_cons]

theorem traverse_eq {t : HNode} (hwf : WF t) :
    ∀ (code : List Bool) (acc : List (Char × List Bool)),
      (leafChars t).Nodup →
      (∀ c ∈ leafChars t, c ∉ acc.map Prod.fst) →
      traverse t code acc =
        acc ++ (pathsList t).map fun p => (p.1, code ++ p.2) := by
  induction hwf with
  | leaf c f =>
      intro code acc _ hfresh
      have hc : c ∉ acc.map Prod.fst := hfresh c (by simp [leafChars])
      simp only [traverse, pathsList, List.map_cons, List.map_nil,
        List.append_nil]
      exact mapSet_fresh c code acc hc
  | node f hl hr ihl ihr =>
      intro code acc hnd hfresh
      simp only [leafChars] at hnd hfresh
      obtain ⟨hndl, hndr, hdisj⟩ := List.nodup_append.mp hnd
      have hfreshl : ∀ c ∈ leafChars _, c ∉ acc.map Prod.fst := fun c hc =>
        hfresh c (List.mem_append_left _ hc)
      rw [traverse, ihl (code ++ [false]) acc hndl hfreshl]
      rw [ihr (code ++ [true]) _ hndr ?_]
      · simp only [pathsList, List.map_append, map_code_shift,
          List.append_assoc]
      · intro c hc
        simp only [List.map_append, List.mem_append, keys_pathsList]
        push_neg
        rw [show ((pathsList _).map fun p : Char × List Bool =>
              (p.1, (code ++ [false]) ++ p.2)).map Prod.fst = leafChars _ by
            rw [List.map_map]
            exact keys_pathsList _]
        exact ⟨hfresh c (List.mem_append_right _ hc),
          fun hcl => hdisj hcl hc⟩

theorem generateCodes_internal {f : Nat} {l r : HNode}
    (hwf : WF (HNode.mk none f l r))
    (hnd : (leafChars (HNode.mk none f l r)).Nodup) :
    generateCodes (HNode.mk none f l r) = pathsList (HNode.mk none f l r) := by
  have h0 : generateCodes (HNode.mk none f l r) =
      traverse (HNode.mk none f l r) [] [] := rfl
  rw [h0, traverse_eq hwf [] [] hnd (by simp)]
  simp [Prod.mk.eta]

theorem pathsList_prefixFree :
    ∀ (t : HNode) {c1 p1 c2 p2},
      (c1, p1) ∈ pathsList t → (c2, p2) ∈ pathsList t → c1 ≠ c2 →
        ¬ p1 <+: p2
  | .null, c1, p1, c2, p2 => by simp [pathsList]
  | .mk (some c) f l r, c1, p1, c2, p2 => by
      simp only [pathsList, List.mem_singleton, Prod.mk.injEq]
      rintro ⟨rfl, rfl⟩ ⟨rfl, rfl⟩ hne
      exact absurd rfl hne
  | .mk none f l r, c1, p1, c2, p2 => by
      intro h1 h2 hne hpre
      simp only [pathsList, List.mem_append, List.mem_map, Prod.mk.injEq]
        at h1 h2
      rcases h1 with ⟨q1, hq1, hq1c, hq1p⟩ | ⟨q1, hq1, hq1c, hq1p⟩ <;>
        rcases h2 with ⟨q2, hq2, hq2c, hq2p⟩ | ⟨q2, hq2, hq2c, hq2p⟩ <;>
          subst hq1c <;> subst hq1p <;> subst hq2c <;> subst hq2p
      · obtain ⟨-, hpre'⟩ := List.cons_prefix_cons.mp hpre
        exact pathsList_prefixFree l
          (by exact (Prod.mk.eta ▸ hq1 : (q1.1, q1.2) ∈ pathsList l))
          (Prod.mk.eta ▸ hq2) hne hpre'
      · obtain ⟨hb, -⟩ := List.cons_prefix_cons.mp hpre
        simp at hb
      · obtain ⟨hb, -⟩ := List.cons_prefix_cons.mp hpre
        simp at hb
      · obtain ⟨-, hpre'⟩ := List.cons_prefix_cons.mp hpre
        exact pathsList_prefixFree r (Prod.mk.eta ▸ hq1)
          (Prod.mk.eta ▸ hq2) hne hpre'

theorem pathsList_internal_ne_nil {f : Nat} {l r : HNode} {c : Char}
    {p : List Bool} (h : (c, p) ∈ pathsList (HNode.mk none f l r)) :
    p ≠ [] := by
  simp only [pathsList, List.mem_append, List.mem_map, Prod.mk.injEq] at h
  rcases h with ⟨q, _, _, hp⟩ | ⟨q, _, _, hp⟩ <;> (rw [← hp]; simp)

/-! ## Encode loop and decode walk -/

theorem encodeText_eq_flatMap (text : List Char)
    (codes : List (Char × List Bool)) :
    encodeText text codes = text.flatMap fun ch => (mapGet ch codes).getD [] := by
  suffices h : ∀ acc : List Bool,
      text.foldl (fun bits ch => bits ++ (mapGet ch codes).getD []) acc =
        acc ++ text.flatMap fun ch => (mapGet ch codes).getD [] by
    simpa [encodeText] using h []
  induction text with
  | nil => simp
  | cons ch tl ih =>
      intro acc
      rw [List.foldl_cons, ih]
      simp [List.flatMap_cons, List.append_assoc]

theorem encodeText_length (text : List Char)
    (codes : List (Char × List Bool)) :
    (encodeText text codes).length =
      (text.map fun ch => ((mapGet ch codes).getD []).length).sum := by
  rw [encodeText_eq_flatMap]
  induction text with
  | nil => rfl
  | cons ch tl ih =>
      simp only [List.flatMap_cons, List.length_append, List.map_cons,
        List.sum_cons, ih]

theorem decodeWalk_path (root : HNode) :
    ∀ (t : HNode), WF t →
      ∀ (f : Nat) (l r : HNode), t = HNode.mk none f l r →
      ∀ (c : Char) (p rest : List Bool), (c, p) ∈ pathsList t →
        decodeWalk root t (p ++ rest) =
          (decodeWalk root root rest).map fun s => c :: s
  | .null, hwf, f, l, r, heq => by simp at heq
  | .mk (some c0) f0 l0 r0, hwf, f, l, r, heq => by simp at heq
  | .mk none f0 l0 r0, hwf, f, l, r, heq => by
      intro c p rest hmem
      cases hwf with
      | node _ hl hr =>
          simp only [pathsList, List.mem_append, List.mem_map, Prod.mk.injEq]
            at hmem
          rcases hmem with ⟨q, hq, hqc, hqp⟩ | ⟨q, hq, hqc, hqp⟩
          · subst hqc
            rw [← hqp, List.cons_append]
            cases hl with
            | leaf c1 f1 =>
                have hq' : q = (c1, []) := by
                  simpa [pathsList] using hq
                rw [hq']
                simp only [decodeWalk, List.nil_append]
            | node f1 hll hlr =>
                rename_i ll lr
                have hq' : (q.1, q.2) ∈ pathsList (HNode.mk none f1 ll lr) := by
                  rw [Prod.mk.eta]
                  exact hq
                simp only [decodeWalk]
                exact decodeWalk_path root _ (WF.node f1 hll hlr) f1 ll lr rfl
                  q.1 q.2 rest hq'
          · subst hqc
            rw [← hqp, List.cons_append]
            cases hr with
            | leaf c1 f1 =>
                have hq' : q = (c1, []) := by
                  simpa [pathsList] using hq
                rw [hq']
                simp only [decodeWalk, List.nil_append]
            | node f1 hrl hrr =>
                rename_i rl rr
                have hq' : (q.1, q.2) ∈ pathsList (HNode.mk none f1 rl rr) := by
                  rw [Prod.mk.eta]
                  exact hq
                simp only [decodeWalk]
                exact decodeWalk_path root _ (WF.node f1 hrl hrr) f1 rl rr rfl
                  q.1 q.2 rest hq'

theorem decodeWalk_encode {f : Nat} {l r : HNode}
    (hwf : WF (HNode.mk none f l r)) :
    ∀ text : List Char,
      (∀ ch ∈ text, ch ∈ leafChars (HNode.mk none f l r)) →
      decodeWalk (HNode.mk none f l r) (HNode.mk none f l r)
          (text.flatMap fun ch =>
            (mapGet ch (pathsList (HNode.mk none f l r))).getD [])
        = some text := by
  intro text
  induction text with
  | nil => intro _; rfl
  | cons ch tl ih =>
      intro hmem
      have hch : ch ∈ (pathsList (HNode.mk none f l r)).map Prod.fst := by
        rw [keys_pathsList]
        exact hmem ch (by simp)
      obtain ⟨p, hp⟩ := mem_keys_mapGet hch
      have hmemp : (ch, p) ∈ pathsList (HNode.mk none f l r) :=
        mapGet_eq_some_mem hp
      rw [List.flatMap_cons, hp, Option.getD_some,
        decodeWalk_path _ _ hwf f l r rfl ch p _ hmemp,
        ih fun ch' h => hmem ch' (List.mem_cons_of_mem _ h)]
      rfl

/-! ## Tree serialization (claim C6 infrastructure) -/

theorem deserialize_serialize (t : HNode) :
    deserializeTree (serializeTree t) = t := by
  induction t with
  | null => rfl
  | mk c f l r ihl ihr => simp [serializeTree, deserializeTree, ihl, ihr]

/-! ## Facade characterizations -/

theorem compress_eq_ok (text : List Char) (hne : text ≠ [])
    {rc : Option Char} {rf : Nat} {rl rr : HNode}
    (hroot : buildHuffmanTree (countFreq text) = HNode.mk rc rf rl rr) :
    compress text = Except.ok
      { compressed := EncodedPayload.wellFormed
          { compressed := bitsToBase64
              (encodeText text (generateCodes (HNode.mk rc rf rl rr)))
            tree := serializeTree (HNode.mk rc rf rl rr)
            originalSize := text.length * 8
            compressedSize :=
              (encodeText text (generateCodes (HNode.mk rc rf rl rr))).length
            compressionRatio :=
              (((text.length * 8 : Nat) : Rat) -
                  ((encodeText text
                    (generateCodes (HNode.mk rc rf rl rr))).length : Rat)) /
                ((text.length * 8 : Nat) : Rat) * 100
            bitsLength :=
              (encodeText text (generateCodes (HNode.mk rc rf rl rr))).length }
        tree := serializeTree (HNode.mk rc rf rl rr)
        originalSize := text.length * 8
        compressedSize :=
          (encodeText text (generateCodes (HNode.mk rc rf rl rr))).length
        compressionRatio :=
          (((text.length * 8 : Nat) : Rat) -
              ((encodeText text
                (generateCodes (HNode.mk rc rf rl rr))).length : Rat)) /
            ((text.length * 8 : Nat) : Rat) * 100 } := by
  simp only [compress]
  rw [if_neg hne, hroot]

theorem decompress_ok_of_body {cd : EncodedPayload} {tr : SerTree}
    {out : List Char} (h : decompressBody cd tr = Except.ok out) :
    decompress cd tr = Except.ok out := by
  unfold decompress
  rw [h]
  rfl

theorem decompressBody_leaf (b : Bundle) (tr : SerTree) (c : Char) (n : Nat)
    (htr : deserializeTree tr = HNode.mk (some c) n HNode.null HNode.null) :
    decompressBody (EncodedPayload.wellFormed b) tr =
      Except.ok
        (List.replicate (base64ToBits b.compressed b.bitsLength).length c) := by
  unfold decompressBody
  rw [show parsePayload (EncodedPayload.wellFormed b) = Except.ok b from rfl]
  rw [show ∀ k : Bundle → Except String (List Char),
        (Except.ok b : Except String Bundle) >>= k = k b from fun k => rfl]
  rw [htr]

theorem decompressBody_internal (b : Bundle) (tr : SerTree) (f : Nat)
    (l r : HNode) (htr : deserializeTree tr = HNode.mk none f l r)
    {out : List Char}
    (hwalk : decodeWalk (HNode.mk none f l r) (HNode.mk none f l r)
        (base64ToBits b.compressed b.bitsLength) = some out) :
    decompressBody (EncodedPayload.wellFormed b) tr = Except.ok out := by
  unfold decompressBody
  rw [show parsePayload (EncodedPayload.wellFormed b) = Except.ok b from rfl]
  rw [show ∀ k : Bundle → Except String (List Char),
        (Except.ok b : Except String Bundle) >>= k = k b from fun k => rfl]
  rw [htr]
  show (match decodeWalk (HNode.mk none f l r) (HNode.mk none f l r)
      (base64ToBits b.compressed b.bitsLength) with
    | some result => Except.ok result
    | none => Except.error "TypeError: null has no properties") = Except.ok out
  rw [hwalk]

theorem encodeText_single : ∀ (text : List Char) (c : Char),
    (∀ ch ∈ text, ch = c) →
    encodeText text [(c, [false])] = List.replicate text.length false := by
  have key : ∀ (text : List Char) (c : Char), (∀ ch ∈ text, ch = c) →
      (text.flatMap fun ch => (mapGet ch [(c, [false])]).getD []) =
        List.replicate text.length false := by
    intro text
    induction text with
    | nil => intro c h; rfl
    | cons ch tl ih =>
        intro c h
        have hch : ch = c := h ch (by simp)
        rw [List.flatMap_cons, hch,
          ih c fun x hx => h x (List.mem_cons_of_mem _ hx)]
        simp [mapGet, List.replicate_succ]
  intro text c h
  rw [encodeText_eq_flatMap, key text c h]

/-- Round trip for a text whose frequency table has a single entry: the root
is the single leaf and both encoder and decoder take their special-case
branches. -/
theorem roundtrip_single (text : List Char) (hne : text ≠ [])
    {c : Char} {n : Nat} (hfreq : countFreq text = [(c, n)]) :
    ∃ res, compress text = Except.ok res ∧
      res.compressedSize = text.length ∧
      decompress res.compressed res.tree = Except.ok text := by
  have hroot : buildHuffmanTree (countFreq text) =
      HNode.mk (some c) n HNode.null HNode.null := by
    rw [hfreq, buildHuffmanTree_single]
  have hall : ∀ ch ∈ text, ch = c := text_single_char hfreq
  have hcodes : generateCodes (HNode.mk (some c) n HNode.null HNode.null) =
      [(c, [false])] := rfl
  have henc : encodeText text
      (generateCodes (HNode.mk (some c) n HNode.null HNode.null)) =
        List.replicate text.length false := by
    rw [hcodes]
    exact encodeText_single text c hall
  refine ⟨_, compress_eq_ok text hne hroot, ?_, ?_⟩
  · simp only [henc, List.length_replicate]
  · apply decompress_ok_of_body
    rw [decompressBody_leaf _ _ c n (deserialize_serialize _)]
    have hb : base64ToBits (bitsToBase64 (List.replicate text.length false))
        text.length = List.replicate text.length false := by
      have hrt := bits_roundtrip (List.replicate text.length false)
      rwa [List.length_replicate] at hrt
    simp only [henc, hb, List.length_replicate]
    rw [show List.replicate text.length c = text from
      (List.eq_replicate_length.mpr hall).symm]

/-- Round trip for a text with at least two distinct characters: the root is
internal and the decoder walks the tree. -/
theorem roundtrip_multi (text : List Char) (hne : text ≠ [])
    (h2 : 2 ≤ (countFreq text).length) :
    ∃ res, compress text = Except.ok res ∧
      decompress res.compressed res.tree = Except.ok text := by
  obtain ⟨root, hroot, hwf, hperm⟩ :=
    buildHuffmanTree_eq (countFreq text) (by intro h0; rw [h0] at h2; simp at h2)
  obtain ⟨f, l, r, hshape⟩ := buildHuffmanTree_internal (countFreq text) h2
  rw [hroot] at hshape
  subst hshape
  have hnd : (leafChars (HNode.mk none f l r)).Nodup :=
    (hperm.nodup_iff).mpr (countFreq_keys_nodup text)
  have hmem : ∀ ch ∈ text, ch ∈ leafChars (HNode.mk none f l r) := by
    intro ch hch
    exact hperm.mem_iff.mpr ((countFreq_mem_keys text ch).mpr hch)
  have hcodes := generateCodes_internal hwf hnd
  refine ⟨_, compress_eq_ok text hne hroot, ?_⟩
  apply decompress_ok_of_body
  apply decompressBody_internal _ _ f l r (deserialize_serialize _)
  simp only [bits_roundtrip]
  rw [encodeText_eq_flatMap, hcodes]
  exact decodeWalk_encode hwf text hmem

/-- Full round trip: split on the size of the frequency table. -/
theorem roundtrip (text : List Char) (hne : text ≠ []) :
    ∃ res, compress text = Except.ok res ∧
      decompress res.compressed res.tree = Except.ok text := by
  match hlen : countFreq text, countFreq_ne_nil hne with
  | [(c, n)], _ =>
      obtain ⟨res, h1, _, h3⟩ := roundtrip_single text hne hlen
      exact ⟨res, h1, h3⟩
  | e1 :: e2 :: rest, _ =>
      exact roundtrip_multi text hne (by rw [hlen]; simp)


/-! ## Claim theorems

One theorem per claim of the specification audit, each derived from the
shared development above. -/

/-- C4: for every bitstring `b` (including the empty one), unpacking the
packed form with the recorded length recovers `b` exactly:
`base64ToBits (bitsToBase64 b) b.length = b`; the trailing padding bits added
to reach a multiple of 8 are discarded by the final truncation. -/
theorem claim_C4_pack_unpack_roundtrip (bits : List Bool) :
    base64ToBits (bitsToBase64 bits) bits.length = bits :=
  bits_roundtrip bits

/-- C4 witness: the round trip evaluated on the concrete bitstring "101"
(length 3, padded to one byte) and implicitly on the empty bitstring via the
universally quantified theorem. -/
theorem claim_C4_pack_unpack_roundtrip_witness :
    base64ToBits (bitsToBase64 [true, false, true]) 3 = [true, false, true] :=
  claim_C4_pack_unpack_roundtrip [true, false, true]

/-- C6: for every finite Huffman tree `t`, `deserializeTree (serializeTree t)`
reconstructs a tree equal to `t` — same shape, same symbol (or absence of
one) and same weight at every node, hence every leaf at the same path. -/
theorem claim_C6_serialize_roundtrip (t : HNode) :
    deserializeTree (serializeTree t) = t :=
  deserialize_serialize t

/-- C6 witness: the serialization round trip evaluated on a concrete
three-node tree. -/
theorem claim_C6_serialize_roundtrip_witness :
    deserializeTree (serializeTree (HNode.mk none 3
        (HNode.mk (some 'a') 2 HNode.null HNode.null)
        (HNode.mk (some 'b') 1 HNode.null HNode.null))) =
      HNode.mk none 3
        (HNode.mk (some 'a') 2 HNode.null HNode.null)
        (HNode.mk (some 'b') 1 HNode.null HNode.null) :=
  claim_C6_serialize_roundtrip _

/-- C7 counterexample: the claim says a valid payload with a null tree raises
a distinct invalid-tree failure, not the corrupt-payload one.  In the code the
internal `"Árvore de Huffman inválida"` throw sits inside the `try` block of
`decompress`, whose `catch` rethrows the single generic message, so the
null-tree call produces exactly the same error value as a corrupt-payload
call: the two failure modes are observably identical, refuting the claim. -/
theorem claim_C7_error_modes_counterexample :
    decompress (EncodedPayload.wellFormed
        { compressed := [], tree := SerTree.null, originalSize := 0,
          compressedSize := 0, compressionRatio := 0, bitsLength := 0 })
        SerTree.null =
      Except.error "Erro na descompressão: dados corrompidos ou inválidos" ∧
    decompress EncodedPayload.malformed
        (SerTree.mk (some 'a') 1 SerTree.null SerTree.null) =
      Except.error "Erro na descompressão: dados corrompidos ou inválidos" := by
  exact ⟨rfl, rfl⟩

/-- C7 amended: `decompress` fails on a corrupt payload and on a null tree,
but both failure modes surface as the one generic error
`"Erro na descompressão: dados corrompidos ou inválidos"`: the internal
invalid-tree throw is swallowed by the function's own catch-all, so the two
failures are not distinguishable by the caller. -/
theorem claim_C7_single_error_mode :
    (∀ b : Bundle, decompress (EncodedPayload.wellFormed b) SerTree.null =
      Except.error "Erro na descompressão: dados corrompidos ou inválidos") ∧
    (∀ t : SerTree, decompress EncodedPayload.malformed t =
      Except.error "Erro na descompressão: dados corrompidos ou inválidos") := by
  exact ⟨fun b => rfl, fun t => rfl⟩

/-- C8: compressing the empty string raises the empty-input error
`"Texto vazio não pode ser comprimido"` and, the result being an error,
produces no payload. -/
theorem claim_C8_empty_input :
    compress [] = Except.error "Texto vazio não pode ser comprimido" := rfl

/-- C10: the result of `decompress` depends only on the `compressed` and
`bitsLength` fields of the decoded bundle (and on the separately passed tree):
two payload bundles that agree on those two fields but differ arbitrarily in
their embedded serialized tree and size metrics decompress identically. -/
theorem claim_C10_payload_field_independence (b1 b2 : Bundle) (tree : SerTree)
    (hcomp : b1.compressed = b2.compressed)
    (hlen : b1.bitsLength = b2.bitsLength) :
    decompress (EncodedPayload.wellFormed b1) tree =
      decompress (EncodedPayload.wellFormed b2) tree := by
  unfold decompress decompressBody
  rw [show parsePayload (EncodedPayload.wellFormed b1) = Except.ok b1 from rfl,
      show parsePayload (EncodedPayload.wellFormed b2) = Except.ok b2 from rfl,
      show ∀ k : Bundle → Except String (List Char),
        (Except.ok b1 : Except String Bundle) >>= k = k b1 from fun k => rfl,
      show ∀ k : Bundle → Except String (List Char),
        (Except.ok b2 : Except String Bundle) >>= k = k b2 from fun k => rfl]
  simp only [hcomp, hlen]

/-- C10 witness: two concrete bundles sharing packed bits and bit length but
with different embedded trees and size metrics decompress to the same
result. -/
theorem claim_C10_payload_field_independence_witness :
    decompress (EncodedPayload.wellFormed
        { compressed := [128], tree := serializeTree (HNode.mk (some 'z') 1
            HNode.null HNode.null),
          originalSize := 8, compressedSize := 1, compressionRatio := 0,
          bitsLength := 1 })
        (SerTree.mk (some 'a') 1 SerTree.null SerTree.null) =
      decompress (EncodedPayload.wellFormed
        { compressed := [128], tree := SerTree.null, originalSize := 999,
          compressedSize := 777, compressionRatio := 50, bitsLength := 1 })
        (SerTree.mk (some 'a') 1 SerTree.null SerTree.null) :=
  claim_C10_payload_field_independence _ _ _ rfl rfl


theorem length_ge_two_of_two_mem {l : List Char} {a b : Char}
    (ha : a ∈ l) (hb : b ∈ l) (hne : a ≠ b) : 2 ≤ l.length := by
  match l with
  | [] => simp at ha
  | [x] =>
      simp only [List.mem_singleton] at ha hb
      exact absurd (ha.trans hb.symm) hne
  | x :: y :: rest =>
      simp only [List.length_cons]
      omega

/-- C1: for every non-empty text `T`, decompressing the output of compression
restores `T` exactly: `compress T` succeeds and
`decompress (compress T).compressed (compress T).tree` returns `T`. -/
theorem claim_C1_compress_decompress_roundtrip (text : List Char)
    (hne : text ≠ []) :
    ∃ res, compress text = Except.ok res ∧
      decompress res.compressed res.tree = Except.ok text :=
  roundtrip text hne

/-- C1 witness: the round trip at the concrete text "ab". -/
theorem claim_C1_compress_decompress_roundtrip_witness :
    (['a', 'b'] : List Char) ≠ [] ∧
      ∃ res, compress ['a', 'b'] = Except.ok res ∧
        decompress res.compressed res.tree = Except.ok ['a', 'b'] :=
  ⟨by decide, claim_C1_compress_decompress_roundtrip ['a', 'b'] (by decide)⟩

/-- C2: for a text made of one symbol repeated `n ≥ 1` times, the code table
assigns that symbol the one-bit code "0" (here `[false]`), `compress` reports
`compressedSize = n`, and decompression restores the text. -/
theorem claim_C2_single_symbol (c : Char) (n : Nat) (h : 1 ≤ n) :
    generateCodes (buildHuffmanTree (countFreq (List.replicate n c))) =
        [(c, [false])] ∧
      ∃ res, compress (List.replicate n c) = Except.ok res ∧
        res.compressedSize = n ∧
        decompress res.compressed res.tree =
          Except.ok (List.replicate n c) := by
  have hfreq := countFreq_replicate c n h
  have hne : List.replicate n c ≠ [] := by
    intro h0
    have hl := congrArg List.length h0
    simp only [List.length_replicate, List.length_nil] at hl
    omega
  constructor
  · rw [hfreq, buildHuffmanTree_single]
    rfl
  · obtain ⟨res, h1, h2, h3⟩ := roundtrip_single (List.replicate n c) hne hfreq
    exact ⟨res, h1, by rw [h2, List.length_replicate], h3⟩

/-- C2 witness: the single-symbol behaviour at the concrete text "aaaa". -/
theorem claim_C2_single_symbol_witness :
    1 ≤ 4 ∧
      (generateCodes (buildHuffmanTree (countFreq (List.replicate 4 'a'))) =
          [('a', [false])] ∧
        ∃ res, compress (List.replicate 4 'a') = Except.ok res ∧
          res.compressedSize = 4 ∧
          decompress res.compressed res.tree =
            Except.ok (List.replicate 4 'a')) :=
  ⟨by decide, claim_C2_single_symbol 'a' 4 (by decide)⟩

/-- C3: for a text with at least two distinct symbols, the code table built
during compression has pairwise-distinct keys, the codes of distinct symbols
are never prefixes of one another, and every symbol of the text is assigned
exactly one non-empty code. -/
theorem claim_C3_code_table_prefixFree (text : List Char)
    (h2 : ∃ a ∈ text, ∃ b ∈ text, a ≠ b) :
    ((generateCodes (buildHuffmanTree (countFreq text))).map Prod.fst).Nodup ∧
      (∀ c1 c2 p1 p2, c1 ≠ c2 →
        mapGet c1 (generateCodes (buildHuffmanTree (countFreq text))) =
          some p1 →
        mapGet c2 (generateCodes (buildHuffmanTree (countFreq text))) =
          some p2 →
        ¬ p1 <+: p2) ∧
      ∀ ch ∈ text,
        ∃ p, mapGet ch (generateCodes (buildHuffmanTree (countFreq text))) =
          some p ∧ p ≠ [] := by
  obtain ⟨a, ha, b, hb, hab⟩ := h2
  have hne : text ≠ [] := by
    intro h0
    rw [h0] at ha
    simp at ha
  have hlen2 : 2 ≤ (countFreq text).length := by
    have h2m := length_ge_two_of_two_mem ((countFreq_mem_keys text a).mpr ha)
      ((countFreq_mem_keys text b).mpr hb) hab
    rwa [List.length_map] at h2m
  obtain ⟨root, hroot, hwf, hperm⟩ :=
    buildHuffmanTree_eq (countFreq text) (countFreq_ne_nil hne)
  obtain ⟨f, l, r, hshape⟩ := buildHuffmanTree_internal (countFreq text) hlen2
  rw [hroot] at hshape
  subst hshape
  have hnd : (leafChars (HNode.mk none f l r)).Nodup :=
    (hperm.nodup_iff).mpr (countFreq_keys_nodup text)
  have hcodes := generateCodes_internal hwf hnd
  rw [hroot, hcodes]
  refine ⟨?_, ?_, ?_⟩
  · rw [keys_pathsList]
    exact hnd
  · intro c1 c2 p1 p2 hc h1 h2
    exact pathsList_prefixFree _ (mapGet_eq_some_mem h1)
      (mapGet_eq_some_mem h2) hc
  · intro ch hch
    have hkey : ch ∈ (pathsList (HNode.mk none f l r)).map Prod.fst := by
      rw [keys_pathsList]
      exact hperm.mem_iff.mpr ((countFreq_mem_keys text ch).mpr hch)
    obtain ⟨p, hp⟩ := mem_keys_mapGet hkey
    exact ⟨p, hp, pathsList_internal_ne_nil (mapGet_eq_some_mem hp)⟩

/-- C3 witness: the code-table properties at the concrete text "ab". -/
theorem claim_C3_code_table_prefixFree_witness :
    (∃ a ∈ (['a', 'b'] : List Char), ∃ b ∈ (['a', 'b'] : List Char), a ≠ b) ∧
      (((generateCodes (buildHuffmanTree (countFreq ['a', 'b']))).map
          Prod.fst).Nodup ∧
        (∀ c1 c2 p1 p2, c1 ≠ c2 →
          mapGet c1 (generateCodes (buildHuffmanTree (countFreq ['a', 'b']))) =
            some p1 →
          mapGet c2 (generateCodes (buildHuffmanTree (countFreq ['a', 'b']))) =
            some p2 →
          ¬ p1 <+: p2) ∧
        ∀ ch ∈ (['a', 'b'] : List Char),
          ∃ p, mapGet ch
              (generateCodes (buildHuffmanTree (countFreq ['a', 'b']))) =
            some p ∧ p ≠ []) :=
  ⟨by decide, claim_C3_code_table_prefixFree ['a', 'b'] (by decide)⟩

/-- C5: for every non-empty text, `compress` reports
`originalSize = 8 × length`, `compressedSize` equal to the length of the
concatenated code bitstring, which equals the sum over the frequency table of
code length times occurrence count, and the unclamped ratio
`(originalSize − compressedSize) / originalSize × 100`; concretely,
"abracadabra" yields `originalSize = 88` and `compressedSize = 23`. -/
theorem claim_C5_size_metrics :
    (∀ text : List Char, text ≠ [] →
      ∃ res, compress text = Except.ok res ∧
        res.originalSize = text.length * 8 ∧
        res.compressedSize = (encodeText text
          (generateCodes (buildHuffmanTree (countFreq text)))).length ∧
        res.compressedSize = ((countFreq text).map fun e => e.2 *
          ((mapGet e.1 (generateCodes
            (buildHuffmanTree (countFreq text)))).getD []).length).sum ∧
        res.compressionRatio =
          ((res.originalSize : Rat) - (res.compressedSize : Rat)) /
            (res.originalSize : Rat) * 100) ∧
      (compress "abracadabra".toList).map (fun r => r.originalSize) =
        Except.ok 88 ∧
      (compress "abracadabra".toList).map (fun r => r.compressedSize) =
        Except.ok 23 := by
  refine ⟨?_, by decide, by decide⟩
  intro text hne
  obtain ⟨root, hroot, hwf, hperm⟩ :=
    buildHuffmanTree_eq (countFreq text) (countFreq_ne_nil hne)
  obtain ⟨rc, rf, rl, rr, hshape⟩ :
      ∃ rc rf rl rr, root = HNode.mk rc rf rl rr := by
    cases root with
    | null => exact absurd rfl hwf.ne_null
    | mk a f2 l2 r2 => exact ⟨a, f2, l2, r2, rfl⟩
  subst hshape
  refine ⟨_, compress_eq_ok text hne hroot, rfl, ?_, ?_, rfl⟩
  · rw [hroot]
  · rw [hroot]
    rw [show ((encodeText text (generateCodes (HNode.mk rc rf rl rr))).length =
        (text.map fun ch => ((mapGet ch
          (generateCodes (HNode.mk rc rf rl rr))).getD []).length).sum)
      from encodeText_length text _]
    exact (countFreq_sum text fun ch => ((mapGet ch
      (generateCodes (HNode.mk rc rf rl rr))).getD []).length).symm

/-- C5 witness: the size metrics at the concrete text "ab". -/
theorem claim_C5_size_metrics_witness :
    (['a', 'b'] : List Char) ≠ [] ∧
      ∃ res, compress ['a', 'b'] = Except.ok res ∧
        res.originalSize = (['a', 'b'] : List Char).length * 8 ∧
        res.compressedSize = (encodeText ['a', 'b']
          (generateCodes (buildHuffmanTree (countFreq ['a', 'b'])))).length ∧
        res.compressedSize = ((countFreq ['a', 'b']).map fun e => e.2 *
          ((mapGet e.1 (generateCodes
            (buildHuffmanTree (countFreq ['a', 'b'])))).getD []).length).sum ∧
        res.compressionRatio =
          ((res.originalSize : Rat) - (res.compressedSize : Rat)) /
            (res.originalSize : Rat) * 100 :=
  ⟨by decide, claim_C5_size_metrics.1 ['a', 'b'] (by decide)⟩

/-- C9: for every non-empty text the tree-construction failure in `compress`
is unreachable: `buildHuffmanTree` on the text's frequency table returns a
non-null root, and `compress` succeeds (so in particular it never raises
"Erro ao construir a árvore de Huffman"). -/
theorem claim_C9_tree_construction_unreachable (text : List Char)
    (hne : text ≠ []) :
    buildHuffmanTree (countFreq text) ≠ HNode.null ∧
      ∃ res, compress text = Except.ok res := by
  obtain ⟨root, hroot, hwf, -⟩ :=
    buildHuffmanTree_eq (countFreq text) (countFreq_ne_nil hne)
  obtain ⟨rc, rf, rl, rr, hshape⟩ :
      ∃ rc rf rl rr, root = HNode.mk rc rf rl rr := by
    cases root with
    | null => exact absurd rfl hwf.ne_null
    | mk a f2 l2 r2 => exact ⟨a, f2, l2, r2, rfl⟩
  subst hshape
  constructor
  · rw [hroot]
    exact hwf.ne_null
  · exact ⟨_, compress_eq_ok text hne hroot⟩

/-- C9 witness: the non-null root and successful compression at the concrete
text "a". -/
theorem claim_C9_tree_construction_unreachable_witness :
    (['a'] : List Char) ≠ [] ∧
      (buildHuffmanTree (countFreq ['a']) ≠ HNode.null ∧
        ∃ res, compress ['a'] = Except.ok res) :=
  ⟨by decide, claim_C9_tree_construction_unreachable ['a'] (by decide)⟩

end HuffmanSpec
